import Mathlib

/- Formal model of src/app.py: a Streamlit dashboard that loads a Meta Ads
   CSV export, derives CTR and CPM metrics, filters rows by campaign and date
   range, and renders KPIs, three charts and a detail table. Strings are
   modelled as lists of characters, dates as integers, monetary amounts and
   counts as rationals, and floating-point cell values as rationals extended
   with the IEEE non-finite values. -/

/-- Model of a pandas floating-point cell value: either a finite rational or
one of the IEEE non-finite values (positive infinity, negative infinity, NaN)
that arise from division by zero. -/
inductive PVal where
  | finite (q : ℚ)
  | posInf
  | negInf
  | nan
deriving DecidableEq, Repr

/-- Whether a cell value is finite (not inf, -inf or NaN). -/
def PVal.isFinite : PVal → Bool
  | .finite _ => true
  | _ => false

/-- IEEE-style division of two finite column values, as performed elementwise
by pandas in lines 39-40 of app.py: division by zero yields inf, -inf or NaN
according to the sign of the numerator, and never raises. -/
def fdiv (a b : ℚ) : PVal :=
  if b = 0 then
    if 0 < a then .posInf else if a < 0 then .negInf else .nan
  else .finite (a / b)

/-- Multiplication of a cell value by a finite scalar, as in the scaling by
100 and by 1000 in lines 39-40 of app.py. -/
def pvMulConst (v : PVal) (c : ℚ) : PVal :=
  match v with
  | .finite q => .finite (q * c)
  | .posInf => if 0 < c then .posInf else if c < 0 then .negInf else .nan
  | .negInf => if 0 < c then .negInf else if c < 0 then .posInf else .nan
  | .nan => .nan

/-- IEEE-style addition of cell values: NaN absorbs everything, opposite
infinities give NaN, otherwise an infinity dominates. -/
def pvAdd : PVal → PVal → PVal
  | .nan, _ => .nan
  | _, .nan => .nan
  | .posInf, .negInf => .nan
  | .negInf, .posInf => .nan
  | .posInf, _ => .posInf
  | _, .posInf => .posInf
  | .negInf, _ => .negInf
  | _, .negInf => .negInf
  | .finite a, .finite b => .finite (a + b)

/-- Sum of a list of cell values. -/
def pvSum (l : List PVal) : PVal := l.foldl pvAdd (.finite 0)

/-- Division of a cell value by a positive count. -/
def pvDivNat : PVal → ℕ → PVal
  | .finite q, n => .finite (q / (n : ℚ))
  | .posInf, _ => .posInf
  | .negInf, _ => .negInf
  | .nan, _ => .nan

/-- Model of pandas Series.mean with its default skipna=True, as used by the
KPI widgets in lines 102-105 of app.py: NaN entries are dropped, the rest are
summed and divided by their count; the mean of no remaining values is NaN.
Infinite entries are not dropped and propagate into the result. -/
def seriesMean (l : List PVal) : PVal :=
  let vs := l.filter (fun v => decide (v ≠ PVal.nan))
  if vs.length = 0 then .nan else pvDivNat (pvSum vs) vs.length

/-- One row of the CSV after the rename in cargar_datos (lines 29-36 of
app.py). Field names are the canonical names the source assigns (campana,
gasto, impresiones, alcance, resultados, costo_por_resultado); the three
parsed date columns (Inicio del informe, Fin del informe, Fin) are modelled
as inicioInforme, finInforme and fin. -/
structure Row where
  campana : List Char
  inicioInforme : ℤ
  finInforme : ℤ
  fin : ℤ
  gasto : ℚ
  impresiones : ℚ
  alcance : ℚ
  resultados : ℚ
  costo_por_resultado : ℚ
deriving DecidableEq, Repr

/-- A row of the cleaned table: the renamed row together with the two derived
metric columns CTR and CPM added in lines 39-40 of app.py. -/
structure CleanRow extends Row where
  CTR : PVal
  CPM : PVal
deriving DecidableEq, Repr

/-- Metric derivation of cargar_datos, lines 39-40 of app.py:
CTR = (resultados / impresiones) * 100 and CPM = (gasto / impresiones) * 1000,
attached to the row. -/
def cleanRow (r : Row) : CleanRow :=
  { toRow := r
  , CTR := pvMulConst (fdiv r.resultados r.impresiones) 100
  , CPM := pvMulConst (fdiv r.gasto r.impresiones) 1000 }

/-- User-selected filter values: the chosen campaign names and the two chosen
dates. -/
structure Filtros where
  campanasSeleccionadas : List (List Char)
  fechaMin : ℤ
  fechaMax : ℤ

/-- Filter applied to the cleaned table in lines 85-89 of app.py: campaign is
among the selected ones, report start is at least fecha_min and report end is
at most fecha_max. -/
def df_filtrado (df : List CleanRow) (f : Filtros) : List CleanRow :=
  df.filter (fun r =>
    decide (r.campana ∈ f.campanasSeleccionadas ∧
      f.fechaMin ≤ r.inicioInforme ∧ r.finInforme ≤ f.fechaMax))

/-- Model of DataFrame.sort_values on a numeric column with ascending=False.
The pandas default sort kind is quicksort, which leaves the relative order of
rows with equal keys unspecified; mergeSort is one concrete realization, so
only properties that are insensitive to the order of equal-key rows (being a
permutation of the input, the key column being descending) are read off this
model as properties of the program. -/
def sort_values_desc (key : CleanRow → ℚ) (df : List CleanRow) : List CleanRow :=
  df.mergeSort (fun a b => decide (key b ≤ key a))

/-- Data handed to the grouped bar chart in tab2 (line 132 of app.py): the
filtered rows sorted by resultados descending. -/
def barInput (df : List CleanRow) : List CleanRow :=
  sort_values_desc (fun r => r.resultados) df

/-- Data handed to the detail table (lines 170-175 of app.py): the filtered
rows sorted by gasto descending. -/
def detailInput (df : List CleanRow) : List CleanRow :=
  sort_values_desc (fun r => r.gasto) df

/-- Model of the ASCII whitespace characters removed by the Python str.strip
method. -/
def isSpace (c : Char) : Bool :=
  c = ' ' || c = '\t' || c = '\n' || c = '\r' || c = '\x0b' || c = '\x0c'

/-- Model of the Python str.split method with separator ":": the list of
chunks between colon occurrences, empty chunks kept. -/
def pySplit : List Char → List (List Char)
  | [] => [[]]
  | c :: rest =>
    if c = ':' then [] :: pySplit rest
    else
      match pySplit rest with
      | [] => [[c]]
      | s :: ss => (c :: s) :: ss

/-- Last element of a list of chunks, as selected by the Python index [-1]. -/
def lastPart : List (List Char) → List Char
  | [] => []
  | [x] => x
  | _ :: x :: xs => lastPart (x :: xs)

/-- Model of the Python str.strip method: removes leading and trailing
whitespace. -/
def pyStrip (l : List Char) : List Char :=
  ((l.dropWhile isSpace).reverse.dropWhile isSpace).reverse

/-- The display-label function used for the campaign multiselect (line 64 of
app.py) and for the trace names of the time-series chart (line 154):
x.split(":")[-1].strip(). -/
def format_func (x : List Char) : List Char :=
  pyStrip (lastPart (pySplit x))

/-- Specification-side description of the label: the substring after the last
colon, the whole string when no colon occurs. -/
def afterLastColon (l : List Char) : List Char :=
  (l.reverse.takeWhile (fun c => decide (c ≠ ':'))).reverse

/-- Model of pandas Series.unique (line 149 of app.py): the distinct values in
order of first appearance, accumulating the values already seen. -/
def uniqueFirstAux (seen : List (List Char)) : List (List Char) → List (List Char)
  | [] => []
  | a :: l =>
    if a ∈ seen then uniqueFirstAux seen l
    else a :: uniqueFirstAux (a :: seen) l

/-- Distinct campaign names in order of first appearance. -/
def uniqueFirst (l : List (List Char)) : List (List Char) :=
  uniqueFirstAux [] l

/-- One trace of the time-series chart in tab3 (lines 149-158 of app.py): the
formatted campaign name, the report-start dates and the resultados of that
campaign rows in the order they occur in the filtered table. -/
structure Trace where
  name : List Char
  xs : List ℤ
  ys : List ℚ
deriving DecidableEq, Repr

/-- The trace built in the loop body for one campaign value. -/
def traceFor (df : List CleanRow) (c : List Char) : Trace :=
  { name := format_func c
  , xs := (df.filter (fun r => decide (r.campana = c))).map (fun r => r.inicioInforme)
  , ys := (df.filter (fun r => decide (r.campana = c))).map (fun r => r.resultados) }

/-- Data handed to the time-series chart: one trace per distinct campaign of
the filtered table, in order of first appearance. -/
def seriesInput (df : List CleanRow) : List Trace :=
  (uniqueFirst (df.map (fun r => r.campana))).map (traceFor df)

/-- The four KPI values shown in lines 98-105 of app.py. -/
structure KPIs where
  totalGastado : ℚ
  resultadosTotales : ℚ
  ctrPromedio : PVal
  cpmPromedio : PVal
deriving DecidableEq, Repr

/-- Computation of the four KPIs over the filtered table: sum of gasto, sum of
resultados, mean of CTR, mean of CPM. -/
def computeKPIs (df : List CleanRow) : KPIs :=
  { totalGastado := (df.map (fun r => r.gasto)).sum
  , resultadosTotales := (df.map (fun r => r.resultados)).sum
  , ctrPromedio := seriesMean (df.map (fun r => r.CTR))
  , cpmPromedio := seriesMean (df.map (fun r => r.CPM)) }

/-- Outcome of one render cycle of the script body after the load: either one
of the two early stops with its warning text, or the full render carrying the
KPIs, the three chart inputs and the detail table. -/
inductive RenderOutput where
  | stopSinDatos (warning : String)
  | stopFiltroVacio (warning : String)
  | render (kpis : KPIs) (scatterData : List CleanRow) (barData : List CleanRow)
      (traces : List Trace) (tablaDetalle : List CleanRow)
deriving DecidableEq, Repr

/-- Model of the script body from line 49 of app.py on: stop with a warning
when the loaded table is empty, stop with a warning when the filtered table is
empty, otherwise render KPIs, the scatter data, the bar data, the time-series
traces and the detail table. -/
def presentar (df : List CleanRow) (f : Filtros) : RenderOutput :=
  if df.isEmpty then
    .stopSinDatos "No se encontraron datos. Verifica el archivo CSV."
  else
    if (df_filtrado df f).isEmpty then
      .stopFiltroVacio "No hay datos con los filtros seleccionados."
    else
      .render (computeKPIs (df_filtrado df f)) (df_filtrado df f)
        (barInput (df_filtrado df f)) (seriesInput (df_filtrado df f))
        (detailInput (df_filtrado df f))

/-- Convenience constructor for concrete rows in witnesses: campaign name,
report start, report end, gasto, impresiones, resultados. The unused columns
are zero. -/
def mkRow (c : List Char) (ini fin : ℤ) (gasto impresiones resultados : ℚ) : Row :=
  { campana := c, inicioInforme := ini, finInforme := fin, fin := fin
  , gasto := gasto, impresiones := impresiones, alcance := 0
  , resultados := resultados, costo_por_resultado := 0 }

/-- Concrete two-row cleaned table whose two rows carry the same campaign
name, with report starts out of chronological order, used to evaluate the
chart inputs on a campaign that spans several rows. -/
def tablaA : List CleanRow :=
  [cleanRow (mkRow [ 'A' ] 5 6 100 10 1), cleanRow (mkRow [ 'A' ] 3 4 50 20 2)]

/-- C2: for every row of the cleaned table, CTR = resultados / impresiones
* 100 and CPM = gasto / impresiones * 1000 exactly when impresiones is
positive, and both derived values are non-finite when impresiones is zero,
produced without raising. -/
theorem ctr_cpm_formula (r : Row) :
    (0 < r.impresiones →
      (cleanRow r).CTR = .finite (r.resultados / r.impresiones * 100) ∧
      (cleanRow r).CPM = .finite (r.gasto / r.impresiones * 1000)) ∧
    (r.impresiones = 0 →
      (cleanRow r).CTR.isFinite = false ∧ (cleanRow r).CPM.isFinite = false) := by
  constructor
  · intro h
    have hne : r.impresiones ≠ 0 := ne_of_gt h
    simp [cleanRow, fdiv, pvMulConst, hne]
  · intro h
    simp only [cleanRow, fdiv, h, if_pos]
    constructor <;> · split_ifs <;> simp [pvMulConst, PVal.isFinite]

/-- Witness for C2 at two concrete rows, one with positive impressions and
one with zero impressions. -/
theorem ctr_cpm_formula_witness :
    (cleanRow (mkRow [ 'A' ] 0 0 5 2 1)).CTR = .finite (1 / 2 * 100) ∧
    (cleanRow (mkRow [ 'A' ] 0 0 5 0 1)).CTR.isFinite = false :=
  ⟨((ctr_cpm_formula (mkRow [ 'A' ] 0 0 5 2 1)).1 (by norm_num [mkRow])).1,
   ((ctr_cpm_formula (mkRow [ 'A' ] 0 0 5 0 1)).2 (by norm_num [mkRow])).1⟩

/-- C3: the filtered table contains exactly the rows of the cleaned table
whose campaign is among the selected ones, whose report start is at least the
selected start and whose report end is at most the selected end. -/
theorem df_filtrado_membership (df : List CleanRow) (f : Filtros) (r : CleanRow) :
    r ∈ df_filtrado df f ↔
      r ∈ df ∧ r.campana ∈ f.campanasSeleccionadas ∧
        f.fechaMin ≤ r.inicioInforme ∧ r.finInforme ≤ f.fechaMax := by
  simp [df_filtrado, List.mem_filter]

/-- C9: filtering an already-filtered table by the same filter values returns
it unchanged. -/
theorem df_filtrado_idempotent (df : List CleanRow) (f : Filtros) :
    df_filtrado (df_filtrado df f) f = df_filtrado df f := by
  simp [df_filtrado, List.filter_filter]

/-- C7: when the loaded table is non-empty but the filtered table is empty,
the presenter stops with the empty-result warning and produces no render with
KPIs, charts or detail table. -/
theorem presentar_filtro_vacio (df : List CleanRow) (f : Filtros)
    (h1 : df ≠ []) (h2 : df_filtrado df f = []) :
    presentar df f = .stopFiltroVacio "No hay datos con los filtros seleccionados." ∧
    ∀ k s b t d, presentar df f ≠ .render k s b t d := by
  constructor
  · simp [presentar, List.isEmpty_iff, h1, h2]
  · intro k s b t d
    simp [presentar, List.isEmpty_iff, h1, h2]

/-- Witness for C7: a one-row table and a date range that excludes the row. -/
theorem presentar_filtro_vacio_witness :
    presentar [cleanRow (mkRow [ 'A' ] 0 0 5 2 1)] ⟨[[ 'A' ]], 10, 20⟩ =
      .stopFiltroVacio "No hay datos con los filtros seleccionados." :=
  (presentar_filtro_vacio [cleanRow (mkRow [ 'A' ] 0 0 5 2 1)] ⟨[[ 'A' ]], 10, 20⟩
    (by simp) (by decide)).1

/-- Transitivity of the boolean descending comparison used by the sort. -/
theorem sortLe_trans (key : CleanRow → ℚ) :
    ∀ a b c : CleanRow, decide (key b ≤ key a) = true →
      decide (key c ≤ key b) = true → decide (key c ≤ key a) = true := by
  intro a b c hab hbc
  simp only [decide_eq_true_eq] at *
  exact le_trans hbc hab

/-- Totality of the boolean descending comparison used by the sort. -/
theorem sortLe_total (key : CleanRow → ℚ) :
    ∀ a b : CleanRow, (decide (key b ≤ key a) || decide (key a ≤ key b)) = true := by
  intro a b
  simp [le_total]

/-- The sorted rows are a permutation of the input rows. -/
theorem sort_values_desc_perm (key : CleanRow → ℚ) (df : List CleanRow) :
    (sort_values_desc key df).Perm df :=
  List.mergeSort_perm df _

/-- The sorted rows are pairwise descending on the key. -/
theorem sort_values_desc_sorted (key : CleanRow → ℚ) (df : List CleanRow) :
    (sort_values_desc key df).Pairwise (fun a b => key b ≤ key a) := by
  have h := @List.sorted_mergeSort CleanRow (fun a b => decide (key b ≤ key a))
    (sortLe_trans key) (sortLe_total key) df
  exact h.imp (fun hab => by simpa using hab)

/-- C4 counterexample: on a filtered table whose two rows carry the same
campaign, the bar-chart input keeps both rows, so its campaign column is not
one aggregated entry per distinct campaign. -/
theorem bar_input_not_aggregated_cex :
    ¬ ((barInput tablaA).map (fun r => r.campana)).Nodup ∧
    (uniqueFirst (tablaA.map (fun r => r.campana))).length = 1 ∧
    (barInput tablaA).length = 2 := by
  have hperm : ((barInput tablaA).map (fun r => r.campana)).Perm
      (tablaA.map (fun r => r.campana)) :=
    (sort_values_desc_perm (fun r => r.resultados) tablaA).map _
  refine ⟨?_, by decide, ?_⟩
  · rw [hperm.nodup_iff]
    decide
  · have := (sort_values_desc_perm (fun r => r.resultados) tablaA).length_eq
    simpa using this

/-- C4 amended: the bar-chart input consists of the filtered rows themselves,
one entry per row, sorted by resultados descending; no per-campaign
aggregation is performed. -/
theorem bar_input_rows_sorted (dff : List CleanRow) :
    (barInput dff).Perm dff ∧
    (barInput dff).Pairwise (fun a b => b.resultados ≤ a.resultados) :=
  ⟨sort_values_desc_perm _ dff, sort_values_desc_sorted _ dff⟩

/-- Membership in the seen-accumulating deduplication. -/
theorem mem_uniqueFirstAux (l : List (List Char)) :
    ∀ seen x, x ∈ uniqueFirstAux seen l ↔ x ∈ l ∧ x ∉ seen := by
  induction l with
  | nil => intro seen x; simp [uniqueFirstAux]
  | cons a l ih =>
    intro seen x
    by_cases ha : a ∈ seen
    · simp only [uniqueFirstAux, if_pos ha, ih, List.mem_cons]
      constructor
      · rintro ⟨h1, h2⟩; exact ⟨Or.inr h1, h2⟩
      · rintro ⟨rfl | h1, h2⟩
        · exact absurd ha h2
        · exact ⟨h1, h2⟩
    · simp only [uniqueFirstAux, if_neg ha, List.mem_cons, ih]
      constructor
      · rintro (rfl | ⟨h1, h2⟩)
        · exact ⟨Or.inl rfl, ha⟩
        · exact ⟨Or.inr h1, fun hx => h2 (Or.inr hx)⟩
      · rintro ⟨rfl | h1, h2⟩
        · exact Or.inl rfl
        · by_cases hxa : x = a
          · exact Or.inl hxa
          · exact Or.inr ⟨h1, fun hx => hx.elim hxa h2⟩

/-- The deduplicated list has no duplicates. -/
theorem nodup_uniqueFirstAux (l : List (List Char)) :
    ∀ seen, (uniqueFirstAux seen l).Nodup := by
  induction l with
  | nil => intro seen; simp [uniqueFirstAux]
  | cons a l ih =>
    intro seen
    by_cases ha : a ∈ seen
    · simpa [uniqueFirstAux, if_pos ha] using ih seen
    · simp only [uniqueFirstAux, if_neg ha, List.nodup_cons]
      refine ⟨fun hmem => ?_, ih _⟩
      have := (mem_uniqueFirstAux l (a :: seen) a).mp hmem
      exact this.2 (List.mem_cons_self a seen)

/-- C6 amended: the time-series chart gets exactly one trace per distinct
campaign present in the filtered table, and within each trace the points
appear in the order their rows occur in the filtered table, which is not
necessarily chronological. -/
theorem series_one_trace_per_campaign (dff : List CleanRow) :
    (uniqueFirst (dff.map (fun r => r.campana))).Nodup ∧
    (∀ c, c ∈ uniqueFirst (dff.map (fun r => r.campana)) ↔
      c ∈ dff.map (fun r => r.campana)) ∧
    (seriesInput dff).length = (uniqueFirst (dff.map (fun r => r.campana))).length ∧
    ∀ c, (traceFor dff c).xs =
      (dff.filter (fun r => decide (r.campana = c))).map (fun r => r.inicioInforme) := by
  refine ⟨nodup_uniqueFirstAux _ [], fun c => ?_, ?_, fun c => rfl⟩
  · rw [uniqueFirst, mem_uniqueFirstAux]
    simp
  · simp [seriesInput]

/-- C6 counterexample: on a filtered table whose rows for one campaign are out
of chronological order, the single trace presents its points in that same
non-chronological order. -/
theorem series_not_chronological_cex :
    (seriesInput tablaA).map Trace.xs = [[5, 3]] ∧
    ¬ List.Pairwise (fun a b => a ≤ b) ([5, 3] : List ℤ) := by
  constructor
  · rfl
  · decide

/-- Adding a value that is neither NaN nor -inf to +inf gives +inf. -/
theorem pvAdd_posInf_left (v : PVal) (h1 : v ≠ .negInf) (h2 : v ≠ .nan) :
    pvAdd .posInf v = .posInf := by
  cases v with
  | finite q => rfl
  | posInf => rfl
  | negInf => exact absurd rfl h1
  | nan => exact absurd rfl h2

/-- Folding the IEEE addition over values none of which is NaN or -inf yields
+inf as soon as the accumulator is +inf or some element is +inf. -/
theorem foldl_pvAdd_posInf (l : List PVal)
    (hnn : ∀ v ∈ l, v ≠ .negInf ∧ v ≠ .nan) :
    ∀ acc : PVal, (acc = .posInf ∨ (∃ q, acc = .finite q ∧ PVal.posInf ∈ l)) →
      l.foldl pvAdd acc = .posInf := by
  induction l with
  | nil =>
    rintro acc (rfl | ⟨q, rfl, h⟩)
    · rfl
    · exact absurd h (List.not_mem_nil _)
  | cons v l ih =>
    have hnn2 : ∀ w ∈ l, w ≠ .negInf ∧ w ≠ .nan :=
      fun w hw => hnn w (List.mem_cons_of_mem _ hw)
    have hv := hnn v (List.mem_cons_self v l)
    rintro acc (rfl | ⟨q, rfl, hmem⟩)
    · rw [List.foldl_cons, pvAdd_posInf_left v hv.1 hv.2]
      exact ih hnn2 _ (Or.inl rfl)
    · rcases List.mem_cons.mp hmem with rfl | hmem2
      · rw [List.foldl_cons]
        exact ih hnn2 _ (Or.inl rfl)
      · cases v with
        | finite q2 =>
          rw [List.foldl_cons]
          exact ih hnn2 _ (Or.inr ⟨q + q2, rfl, hmem2⟩)
        | posInf =>
          rw [List.foldl_cons]
          exact ih hnn2 _ (Or.inl rfl)
        | negInf => exact absurd rfl hv.1
        | nan => exact absurd rfl hv.2

/-- The mean of a series that contains +inf and no -inf is +inf: the infinity
is not skipped and propagates through sum and division. -/
theorem seriesMean_posInf (l : List PVal)
    (hnn : ∀ v ∈ l, v ≠ PVal.negInf) (hp : PVal.posInf ∈ l) :
    seriesMean l = .posInf := by
  have hpv : PVal.posInf ∈ l.filter (fun v => decide (v ≠ PVal.nan)) := by
    rw [List.mem_filter]
    exact ⟨hp, by decide⟩
  have hlen : (l.filter (fun v => decide (v ≠ PVal.nan))).length ≠ 0 := by
    intro h
    rw [List.length_eq_zero] at h
    rw [h] at hpv
    exact absurd hpv (List.not_mem_nil _)
  have hsum : pvSum (l.filter (fun v => decide (v ≠ PVal.nan))) = .posInf := by
    apply foldl_pvAdd_posInf
    · intro v hv
      have := List.mem_filter.mp hv
      refine ⟨hnn v this.1, ?_⟩
      simpa using this.2
    · exact Or.inr ⟨0, rfl, hpv⟩
  rw [seriesMean]
  simp only [if_neg hlen, hsum]
  rfl

/-- Scaling the IEEE quotient of a non-negative numerator by a positive
constant never yields -inf. -/
theorem fdiv_scale_not_negInf (a b c : ℚ) (ha : 0 ≤ a) (hc : 0 < c) :
    pvMulConst (fdiv a b) c ≠ .negInf := by
  rw [fdiv]
  by_cases h0 : b = 0
  · rw [if_pos h0]
    rcases lt_or_eq_of_le ha with hlt | heq
    · rw [if_pos hlt]
      simp [pvMulConst, hc]
    · rw [if_neg (by rw [← heq]; exact lt_irrefl 0),
        if_neg (by rw [← heq]; exact lt_irrefl 0)]
      simp [pvMulConst]
  · rw [if_neg h0]
    simp [pvMulConst]

/-- Scaling the IEEE quotient of a positive numerator and a zero denominator
by a positive constant yields +inf. -/
theorem fdiv_scale_posInf (a c : ℚ) (ha : 0 < a) (hc : 0 < c) :
    pvMulConst (fdiv a 0) c = .posInf := by
  simp [fdiv, pvMulConst, ha, hc]

/-- C8 amended: a filtered row with zero impressions has non-finite CTR and
CPM; the mean computations drop NaN values but propagate infinities, so when
some filtered row has zero impressions and positive results (resp. positive
spend) the mean CTR (resp. mean CPM) is +inf rather than a value with that row
excluded or zeroed; the computation is total and never raises. -/
theorem kpi_mean_with_zero_impressions (dff : List CleanRow)
    (hclean : ∀ r ∈ dff, r = cleanRow r.toRow)
    (hres : ∀ r ∈ dff, 0 ≤ r.resultados)
    (hgas : ∀ r ∈ dff, 0 ≤ r.gasto) :
    (∀ r ∈ dff, r.impresiones = 0 →
      r.CTR.isFinite = false ∧ r.CPM.isFinite = false) ∧
    (∀ l : List PVal, seriesMean (.nan :: l) = seriesMean l) ∧
    ((∃ r ∈ dff, r.impresiones = 0 ∧ 0 < r.resultados) →
      seriesMean (dff.map (fun r => r.CTR)) = .posInf) ∧
    ((∃ r ∈ dff, r.impresiones = 0 ∧ 0 < r.gasto) →
      seriesMean (dff.map (fun r => r.CPM)) = .posInf) := by
  refine ⟨?_, ?_, ?_, ?_⟩
  · intro r hr h0
    rw [hclean r hr]
    have h0r : r.toRow.impresiones = 0 := h0
    constructor
    · show (pvMulConst (fdiv r.toRow.resultados r.toRow.impresiones) 100).isFinite = false
      rw [h0r, fdiv]
      simp only [if_pos rfl]
      split_ifs <;> rfl
    · show (pvMulConst (fdiv r.toRow.gasto r.toRow.impresiones) 1000).isFinite = false
      rw [h0r, fdiv]
      simp only [if_pos rfl]
      split_ifs <;> rfl
  · intro l
    rw [seriesMean, seriesMean]
    simp
  · rintro ⟨r, hr, h0, hpos⟩
    apply seriesMean_posInf
    · intro v hv
      rcases List.mem_map.mp hv with ⟨s, hs, rfl⟩
      rw [hclean s hs]
      exact fdiv_scale_not_negInf _ _ _ (hres s hs) (by norm_num)
    · refine List.mem_map.mpr ⟨r, hr, ?_⟩
      rw [hclean r hr]
      show pvMulConst (fdiv r.toRow.resultados r.toRow.impresiones) 100 = .posInf
      have h0r : r.toRow.impresiones = 0 := h0
      rw [h0r]
      exact fdiv_scale_posInf _ _ hpos (by norm_num)
  · rintro ⟨r, hr, h0, hpos⟩
    apply seriesMean_posInf
    · intro v hv
      rcases List.mem_map.mp hv with ⟨s, hs, rfl⟩
      rw [hclean s hs]
      exact fdiv_scale_not_negInf _ _ _ (hgas s hs) (by norm_num)
    · refine List.mem_map.mpr ⟨r, hr, ?_⟩
      rw [hclean r hr]
      show pvMulConst (fdiv r.toRow.gasto r.toRow.impresiones) 1000 = .posInf
      have h0r : r.toRow.impresiones = 0 := h0
      rw [h0r]
      exact fdiv_scale_posInf _ _ hpos (by norm_num)

/-- Witness for C8 at a concrete one-row table with zero impressions and
positive results: the mean CTR evaluates to +inf. -/
theorem kpi_mean_with_zero_impressions_witness :
    seriesMean ([cleanRow (mkRow [ 'A' ] 0 0 3 0 5)].map (fun r => r.CTR)) = .posInf :=
  (kpi_mean_with_zero_impressions [cleanRow (mkRow [ 'A' ] 0 0 3 0 5)]
    (by intro r hr; rw [List.mem_singleton] at hr; rw [hr]; rfl)
    (by intro r hr; rw [List.mem_singleton] at hr; rw [hr]; norm_num [cleanRow, mkRow])
    (by intro r hr; rw [List.mem_singleton] at hr; rw [hr]; norm_num [cleanRow, mkRow])).2.2.1
    ⟨cleanRow (mkRow [ 'A' ] 0 0 3 0 5), List.mem_singleton.mpr rfl,
      by norm_num [cleanRow, mkRow]⟩

/-- C8 counterexample: for a one-row table with zero impressions and positive
results the mean CTR is +inf, whereas excluding the non-finite value would
give NaN (mean of no values) and zeroing it would give 0. -/
theorem kpi_mean_not_excluded_cex :
    seriesMean ([cleanRow (mkRow [ 'A' ] 0 0 3 0 5)].map (fun r => r.CTR)) = .posInf ∧
    seriesMean [] = .nan ∧
    seriesMean [.finite 0] = .finite 0 ∧
    PVal.posInf ≠ .nan ∧ PVal.posInf ≠ .finite 0 := by
  refine ⟨?_, rfl, ?_, by decide, by decide⟩
  · have h5 : (0 : ℚ) < 5 := by norm_num
    have h100 : (0 : ℚ) < 100 := by norm_num
    show seriesMean [(cleanRow (mkRow [ 'A' ] 0 0 3 0 5)).CTR] = .posInf
    have hctr : (cleanRow (mkRow [ 'A' ] 0 0 3 0 5)).CTR = .posInf := by
      show pvMulConst (fdiv (5 : ℚ) 0) 100 = .posInf
      exact fdiv_scale_posInf 5 100 h5 h100
    rw [hctr]
    rfl
  · have hf : [PVal.finite 0].filter (fun v => decide (v ≠ PVal.nan)) = [PVal.finite 0] := by
      simp
    rw [seriesMean]
    simp only [hf]
    norm_num [pvSum, pvAdd, pvDivNat, List.foldl]

/-- The chunk list produced by pySplit is never empty. -/
theorem pySplit_ne_nil (l : List Char) : pySplit l ≠ [] := by
  cases l with
  | nil => simp [pySplit]
  | cons c rest =>
    simp only [pySplit]
    split
    · simp
    · split <;> simp

/-- The number of chunks is the number of colons plus one. -/
theorem pySplit_length (l : List Char) :
    (pySplit l).length = l.count ':' + 1 := by
  induction l with
  | nil => simp [pySplit]
  | cons c rest ih =>
    by_cases hc : c = ':'
    · subst hc
      simp [pySplit, List.count_cons, ih]
    · simp only [pySplit, if_neg hc]
      cases h : pySplit rest with
      | nil => exact absurd h (pySplit_ne_nil rest)
      | cons s ss =>
        rw [h] at ih
        simp only [List.length_cons] at ih ⊢
        rw [List.count_cons]
        have : (':' == c) = false := by
          simp [Ne.symm hc]
        simp [this, ih, hc]

/-- Splitting a string with no colon yields the whole string as the one
chunk. -/
theorem pySplit_noColon (l : List Char) (h : ':' ∉ l) : pySplit l = [l] := by
  induction l with
  | nil => rfl
  | cons c rest ih =>
    have hc : c ≠ ':' := by
      rintro rfl
      exact h (List.mem_cons_self _ _)
    have hrest : ':' ∉ rest := fun hx => h (List.mem_cons_of_mem _ hx)
    simp only [pySplit, if_neg hc, ih hrest]

/-- The last chunk ignores a leading chunk when more follow. -/
theorem lastPart_cons (x : List Char) (l : List (List Char)) (h : l ≠ []) :
    lastPart (x :: l) = lastPart l := by
  cases l with
  | nil => exact absurd rfl h
  | cons y ys => rfl

/-- On a string with no colon the suffix after the last colon is the whole
string. -/
theorem afterLastColon_noColon (l : List Char) (h : ':' ∉ l) :
    afterLastColon l = l := by
  rw [afterLastColon]
  have heq : List.takeWhile (fun c => decide (c ≠ ':')) l.reverse = l.reverse := by
    rw [List.takeWhile_eq_self_iff]
    intro x hx
    simp only [decide_eq_true_eq]
    exact fun h2 => h (h2 ▸ List.mem_reverse.mp hx)
  rw [heq, List.reverse_reverse]

/-- Unfolding of the suffix after the last colon over a leading character. -/
theorem afterLastColon_cons (c : Char) (l : List Char) :
    afterLastColon (c :: l) =
      if ':' ∈ l then afterLastColon l else if c = ':' then l else c :: l := by
  by_cases hm : ':' ∈ l
  · rw [if_pos hm, afterLastColon, afterLastColon, List.reverse_cons,
      List.takeWhile_append]
    have hne : (List.takeWhile (fun x => decide (x ≠ ':')) l.reverse).length ≠
        l.reverse.length := by
      intro hlen
      have hsub : (List.takeWhile (fun x => decide (x ≠ ':')) l.reverse).Sublist
          l.reverse :=
        List.takeWhile_sublist _
      have heq := hsub.eq_of_length hlen
      have := List.takeWhile_eq_self_iff.mp heq ':' (List.mem_reverse.mpr hm)
      simp at this
    rw [if_neg hne]
  · rw [if_neg hm, afterLastColon]
    have heq : List.takeWhile (fun x => decide (x ≠ ':')) l.reverse = l.reverse := by
      rw [List.takeWhile_eq_self_iff]
      intro x hx
      simp only [decide_eq_true_eq]
      exact fun h2 => hm (h2 ▸ List.mem_reverse.mp hx)
    rw [List.reverse_cons, List.takeWhile_append, if_pos (by rw [heq])]
    by_cases hc : c = ':'
    · rw [if_pos hc]
      subst hc
      have h1 : List.takeWhile (fun x => decide (x ≠ ':')) [':'] = [] := rfl
      rw [h1, List.append_nil, List.reverse_reverse]
    · rw [if_neg hc]
      have h1 : List.takeWhile (fun x => decide (x ≠ ':')) [c] = [c] := by
        simp [List.takeWhile_cons, hc]
      rw [h1, List.reverse_append]
      simp

/-- The last chunk of the colon split is the suffix after the last colon. -/
theorem lastPart_pySplit (l : List Char) :
    lastPart (pySplit l) = afterLastColon l := by
  induction l with
  | nil => rfl
  | cons c rest ih =>
    rw [afterLastColon_cons]
    by_cases hc : c = ':'
    · subst hc
      have h1 : pySplit (':' :: rest) = [] :: pySplit rest := by
        simp [pySplit]
      rw [h1, lastPart_cons _ _ (pySplit_ne_nil rest), ih]
      by_cases hm : ':' ∈ rest
      · rw [if_pos hm]
      · rw [if_neg hm, if_pos rfl, afterLastColon_noColon rest hm]
    · cases hsplit : pySplit rest with
      | nil => exact absurd hsplit (pySplit_ne_nil rest)
      | cons s ss =>
        have h1 : pySplit (c :: rest) = (c :: s) :: ss := by
          simp only [pySplit, if_neg hc, hsplit]
        cases ss with
        | nil =>
          have hcount : List.count ':' rest = 0 := by
            have hlen := pySplit_length rest
            rw [hsplit] at hlen
            simp at hlen
            omega
          have hm : ':' ∉ rest := List.count_eq_zero.mp hcount
          have hs : s = rest := by
            have h2 := pySplit_noColon rest hm
            rw [hsplit] at h2
            simpa using h2
          rw [h1, hs, if_neg hm, if_neg hc]
          rfl
        | cons s2 ss2 =>
          have hm : ':' ∈ rest := by
            by_contra hnm
            have h2 := pySplit_noColon rest hnm
            rw [hsplit] at h2
            simp at h2
          rw [h1, if_pos hm, ← ih, hsplit]
          rfl

/-- C10: the display label is the substring after the last colon with
surrounding whitespace stripped; for a name with no colon it is the whole
name stripped; and the stripped result is empty exactly when every character
of the stripped string is whitespace. -/
theorem format_func_label (name : List Char) :
    format_func name = pyStrip (afterLastColon name) ∧
    (':' ∉ name → format_func name = pyStrip name) ∧
    (pyStrip name = [] ↔ ∀ c ∈ name, isSpace c = true) := by
  refine ⟨?_, ?_, ?_⟩
  · rw [format_func, lastPart_pySplit]
  · intro h
    rw [format_func, lastPart_pySplit, afterLastColon_noColon name h]
  · rw [pyStrip, List.reverse_eq_nil_iff, List.dropWhile_eq_nil_iff]
    constructor
    · intro h x hx
      rcases (List.mem_append.mp
        ((List.takeWhile_append_dropWhile isSpace name) ▸ hx)) with h1 | h1
      · exact List.mem_takeWhile_imp h1
      · exact h x (List.mem_reverse.mpr h1)
    · intro h x hx
      exact h x ((List.dropWhile_sublist isSpace).mem (List.mem_reverse.mp hx))

/-- Witness for C10 at a concrete colon-free name with surrounding blanks. -/
theorem format_func_label_witness :
    format_func [ ' ', 'h', 'i', ' ' ] = pyStrip [ ' ', 'h', 'i', ' ' ] ∧
    pyStrip [ ' ', 'h', 'i', ' ' ] = [ 'h', 'i' ] :=
  ⟨(format_func_label [ ' ', 'h', 'i', ' ' ]).2.1 (by decide), by decide⟩
